import Mathlib

/-!
# Verification of `suite2p/registration/nonrigid.py`

Shallow embedding of the non-rigid registration core and proofs about it.

Modelling conventions:
* NumPy floating-point arithmetic is modelled by exact rationals (`ℚ`).  The
  only floating-point behaviour that matters to the claims under study is the
  IEEE result of dividing by a zero denominator, which is modelled explicitly
  by the type `FVal` below (finite value / +inf / -inf / NaN).
* Integer-valued NumPy computations (`astype('int')`, `//`, `np.ceil` of exact
  ratios, shapes, slices) are modelled by exact `ℕ`/`ℤ` arithmetic.
* 2-D arrays are modelled as functions `ℕ → ℕ → ℚ` together with explicit
  dimensions; flattened (`reshape(-1)`) views are modelled as `List ℚ` in
  row-major order, matching NumPy's C order.
* `np.exp` is transcendental, hence not exactly representable by an executable
  rational function.  Where the code only uses positivity of the Gaussian
  kernel values (the row-stochastic smoothing operator `kernelD2`), the
  entrywise kernel is abstracted as a parameter `g` with a positivity
  hypothesis satisfied by `exp`.
-/

/-- Surfaces (2-D correlation arrays) are total functions; dimensions are
carried separately by each operation. -/
abbrev Surf : Type := ℕ → ℕ → ℚ

/-- Result of a NumPy floating-point division: a finite value or one of the
IEEE special values produced when the denominator is zero. -/
inductive FVal : Type
  | fin (q : ℚ)
  | posInf
  | negInf
  | nan
deriving DecidableEq, Repr

/-- NumPy elementwise division `a / b`: finite quotient when `b ≠ 0`, else the
IEEE special value determined by the sign of `a` (`inf`, `-inf`, or `nan`). -/
def fdiv (a b : ℚ) : FVal :=
  if b = 0 then (if 0 < a then FVal.posInf else if a < 0 then FVal.negInf else FVal.nan)
  else FVal.fin (a / b)

/-- IEEE comparison `v < t` for a finite float `t`: `+inf < t` and `nan < t`
are false, `-inf < t` is true. -/
def fvalLt (v : FVal) (t : ℚ) : Bool :=
  match v with
  | FVal.fin q => decide (q < t)
  | FVal.posInf => false
  | FVal.negInf => true
  | FVal.nan => false

/-! ## Block partitioner: `calculate_nblocks`, `make_blocks` (nonrigid.py 47-67) -/

/-- `calculate_nblocks(L, block_size)`:
`return (L, 1) if block_size >= L else (block_size, int(np.ceil(1.5 * L / block_size)))`.
The exact ceiling `⌈3L / 2B⌉` is written as `(3L + 2B - 1) / (2B)` in `ℕ`. -/
def calculate_nblocks (L block_size : ℕ) : ℕ × ℕ :=
  if L ≤ block_size then (L, 1)
  else (block_size, (3 * L + 2 * block_size - 1) / (2 * block_size))

/-- One entry of `np.linspace(0, L - bs, n).astype('int')`: the interpolated
value `i * (L - bs) / (n - 1)` truncated to an integer (for these non-negative
values, `astype('int')` is the floor, i.e. `ℕ` division).  `np.linspace` with
`n = 1` produces the single value `0`. -/
def linStart (L bs n i : ℕ) : ℕ :=
  if n ≤ 1 then 0 else i * (L - bs) / (n - 1)

/-- `yblock` from `make_blocks`:
`[[ystart[iy], ystart[iy] + block_size[0]] for iy in range(ny) for _ in range(nx)]`. -/
def yblocks (Ly Lx By Bx : ℕ) : List (ℕ × ℕ) :=
  let bsy := (calculate_nblocks Ly By).1
  let ny := (calculate_nblocks Ly By).2
  let nx := (calculate_nblocks Lx Bx).2
  (List.range ny).flatMap fun iy =>
    (List.range nx).map fun _ => (linStart Ly bsy ny iy, linStart Ly bsy ny iy + bsy)

/-- `xblock` from `make_blocks`:
`[[xstart[ix], xstart[ix] + block_size[1]] for _ in range(ny) for ix in range(nx)]`. -/
def xblocks (Ly Lx By Bx : ℕ) : List (ℕ × ℕ) :=
  let bsx := (calculate_nblocks Lx Bx).1
  let ny := (calculate_nblocks Ly By).2
  let nx := (calculate_nblocks Lx Bx).2
  (List.range ny).flatMap fun _ =>
    (List.range nx).map fun ix => (linStart Lx bsx nx ix, linStart Lx bsx nx ix + bsx)

/-- The claim's reading of the offsets: the linear interpolation value rounded
to the *nearest* integer. -/
def roundNearest (q : ℚ) : ℤ := ⌊q + 1 / 2⌋

/-! ## Block-smoothing operator: `kernelD2` (nonrigid.py 28-34, 65) -/

/-- Squared distance between flattened block-grid positions `p` and `q` in
`kernelD2`: with `xs = arange(nx)`, `ys = arange(ny)`, the code's
`ys, xs = np.meshgrid(xs, ys)` gives, after flattening in row-major order,
coordinates `ys[p] = p % nx` and `xs[p] = p / nx`, and
`R[p, q] = exp(-((ys[q] - ys[p])^2 + (xs[q] - xs[p])^2))`. -/
def kd2dist2 (nx p q : ℕ) : ℕ :=
  ((((q % nx : ℕ) : ℤ) - ((p % nx : ℕ) : ℤ)) ^ 2 +
    (((q / nx : ℕ) : ℤ) - ((p / nx : ℕ) : ℤ)) ^ 2).toNat

/-- Entry `R[p, q]` of the unnormalised Gaussian matrix of `kernelD2`, with
the transcendental `d ↦ exp(-d)` abstracted as a parameter `g`; only
positivity of `exp` is used by the theorems. -/
def kernelD2R (g : ℕ → ℚ) (nx p q : ℕ) : ℚ := g (kd2dist2 nx p q)

/-- Column sum `np.sum(R, axis=0)[q]` over the `N = ny * nx` rows. -/
def kernelD2colSum (g : ℕ → ℚ) (ny nx q : ℕ) : ℚ :=
  ∑ p ∈ Finset.range (ny * nx), kernelD2R g nx p q

/-- Entry `[q][p]` of `NRsm = kernelD2(xs=np.arange(nx), ys=np.arange(ny)).T`
as built by `make_blocks`: the column-normalised `R`, transposed. -/
def NRsmEnt (g : ℕ → ℚ) (ny nx q p : ℕ) : ℚ :=
  kernelD2R g nx p q / kernelD2colSum g ny nx q

/-! ## Bilinear resampling: `map_coordinates`, `shift_coordinates`
(nonrigid.py 243-317) -/

/-- Truncation toward zero: the semantics of `.astype(np.int32)` on a float
coordinate (`numba`/NumPy cast), which for negative fractional values differs
from `floor`. -/
def ratTrunc (q : ℚ) : ℤ := if 0 ≤ q then ⌊q⌋ else ⌈q⌉

/-- `min(L - 1, max(0, k))`: the index clamping used in `map_coordinates`. -/
def clampIdx (L : ℕ) (k : ℤ) : ℕ := (min ((L : ℤ) - 1) (max 0 k)).toNat

/-- One output value of `map_coordinates(I, yc, xc, Y)`:
`yc_floor = yc.astype(int32)` (truncation toward zero), fractional parts
`y = yc - yc_floor`, `x = xc - xc_floor`, indices
`yf = min(Ly-1, max(0, yc_floor))`, `yf1 = min(Ly-1, yf+1)` (same in x), and
the four-point blend with weights `(1-y)(1-x), (1-y)x, y(1-x), yx`. -/
def map_coordinates (I : Surf) (Ly Lx : ℕ) (yc xc : ℚ) : ℚ :=
  let ycf := ratTrunc yc
  let xcf := ratTrunc xc
  let y := yc - ycf
  let x := xc - xcf
  let yf := clampIdx Ly ycf
  let xf := clampIdx Lx xcf
  let yf1 := min (Ly - 1) (yf + 1)
  let xf1 := min (Lx - 1) (xf + 1)
  I yf xf * (1 - y) * (1 - x) + I yf xf1 * (1 - y) * x +
    I yf1 xf * y * (1 - x) + I yf1 xf1 * y * x

/-- The claim's description of the bilinear primitive: FLOOR the coordinates,
clamp each of the four neighbouring indices into range, and blend with the
(floor-based, always in `[0,1)`) fractional-part weights. -/
def bilinearFloorClamp (I : Surf) (Ly Lx : ℕ) (yc xc : ℚ) : ℚ :=
  let y := yc - ⌊yc⌋
  let x := xc - ⌊xc⌋
  let yf := clampIdx Ly ⌊yc⌋
  let xf := clampIdx Lx ⌊xc⌋
  let yf1 := clampIdx Ly (⌊yc⌋ + 1)
  let xf1 := clampIdx Lx (⌊xc⌋ + 1)
  I yf xf * (1 - y) * (1 - x) + I yf xf1 * (1 - y) * x +
    I yf1 xf * y * (1 - x) + I yf1 xf1 * y * x

/-- `shift_coordinates(data, yup, xup, mshy, mshx, Y)`: per frame `t`,
`Y[t] = map_coordinates(data[t], mshy + yup[t], mshx + xup[t])`. -/
def shift_coordinates (data : ℕ → Surf) (yup xup : ℕ → Surf) (mshy mshx : Surf)
    (Ly Lx : ℕ) : ℕ → ℕ → ℕ → ℚ :=
  fun t i j =>
    map_coordinates (data t) Ly Lx (mshy i j + yup t i j) (mshx i j + xup t i j)

/-- The identity base meshgrid built by `transform_data` (line 410):
`mshx, mshy = np.meshgrid(arange(Lx), arange(Ly))`, so `mshy[i,j] = i`. -/
def baseMeshY : Surf := fun i _ => (i : ℚ)

/-- The identity base meshgrid, x component: `mshx[i,j] = j`. -/
def baseMeshX : Surf := fun _ j => (j : ℚ)

/-- The all-zero displacement field. -/
def zeroField : ℕ → Surf := fun _ _ _ => 0

/-- Concrete 2×1 image for the C3 counterexample: `I[0,0] = 0`, `I[1,0] = 10`. -/
def img2x1 : Surf := fun i _ => if i = 1 then 10 else 0

/-! ## SNR of the phase correlation: `getSNR` (nonrigid.py 129-145)

`getSNR` receives, per frame, a `(2*lcorr+2*lpad+1)²` correlation surface.
All its NumPy reductions (`amax`, `argmax`) act per frame along the
flattened (row-major) axis, modelled by `List ℚ` operations below. -/

/-- `np.amax` of a non-empty flattened array (`0` for the empty list, which
the code never produces when `lpad ≥ 1`). -/
def npAmax : List ℚ → ℚ
  | [] => 0
  | [a] => a
  | a :: b :: rest => max a (npAmax (b :: rest))

/-- First index at which the list reaches a value `≥ m`; applied with `m` the
list's maximum this is `np.argmax` (NumPy keeps the FIRST index attaining the
maximum). -/
def firstIdxGe (m : ℚ) : List ℚ → ℕ
  | [] => 0
  | a :: rest => if m ≤ a then 0 else firstIdxGe m rest + 1

/-- `np.argmax` of a flattened array: the first index attaining the maximum. -/
def npArgmax (l : List ℚ) : ℕ := firstIdxGe (npAmax l) l

/-- One frame of `cc0 = cc[:, lpad:-lpad, lpad:-lpad]` flattened in row-major
order (`np.reshape(cc0, (nimg, -1))`): for `lpad ≥ 1` the slice is the inner
`(2*lcorr+1)`-wide window, so entry `p` is
`cc[p / (2*lcorr+1) + lpad][p % (2*lcorr+1) + lpad]`. -/
def innerFlat (lcorr lpad : ℕ) (cc : Surf) : List ℚ :=
  (List.range ((2 * lcorr + 1) * (2 * lcorr + 1))).map fun p =>
    cc (p / (2 * lcorr + 1) + lpad) (p % (2 * lcorr + 1) + lpad)

/-- `X1max = np.amax(cc0, axis=1)` for one frame. -/
def snrX1max (lcorr lpad : ℕ) (cc : Surf) : ℚ := npAmax (innerFlat lcorr lpad cc)

/-- `ymax` of `np.unravel_index(np.argmax(cc0, axis=1), (2*lcorr+1, 2*lcorr+1))`. -/
def snrYpk (lcorr lpad : ℕ) (cc : Surf) : ℕ :=
  npArgmax (innerFlat lcorr lpad cc) / (2 * lcorr + 1)

/-- `xmax` of the same `np.unravel_index`. -/
def snrXpk (lcorr lpad : ℕ) (cc : Surf) : ℕ :=
  npArgmax (innerFlat lcorr lpad cc) % (2 * lcorr + 1)

/-- The full surface after
`cc0[j, ymax[j]:ymax[j]+2*lpad, xmax[j]:xmax[j]+2*lpad] = 0` (on a copy of
`cc`): the `2*lpad`-sized square is anchored at the peak's inner-window
coordinates, i.e. offset `-lpad` from the peak in full coordinates. -/
def snrZeroed (lcorr lpad : ℕ) (cc : Surf) : Surf := fun i j =>
  if snrYpk lcorr lpad cc ≤ i ∧ i < snrYpk lcorr lpad cc + 2 * lpad ∧
      snrXpk lcorr lpad cc ≤ j ∧ j < snrXpk lcorr lpad cc + 2 * lpad
  then 0 else cc i j

/-- The zeroed full surface flattened (`np.reshape(cc0, (nimg, -1))`). -/
def zeroedFlat (lcorr lpad : ℕ) (cc : Surf) : List ℚ :=
  (List.range ((2 * lcorr + 2 * lpad + 1) * (2 * lcorr + 2 * lpad + 1))).map fun q =>
    snrZeroed lcorr lpad cc (q / (2 * lcorr + 2 * lpad + 1)) (q % (2 * lcorr + 2 * lpad + 1))

/-- `Xmax = np.maximum(0, np.amax(cc0, axis=1))` for one frame. -/
def snrXmax (lcorr lpad : ℕ) (cc : Surf) : ℚ :=
  max 0 (npAmax (zeroedFlat lcorr lpad cc))

/-- `getSNR(cc, (lcorr, lpad))` for one frame: `snr = X1max / Xmax` (IEEE
division, since `Xmax` may be zero). -/
def getSNRframe (lcorr lpad : ℕ) (cc : Surf) : FVal :=
  fdiv (snrX1max lcorr lpad cc) (snrXmax lcorr lpad cc)

/-- Specification side (C5): the best peak value within the inner
`(2*lcorr+1)`-wide window, as a `Finset` supremum over grid positions. -/
def specInnerPeak (lcorr lpad : ℕ) (cc : Surf) : ℚ :=
  Finset.sup' (Finset.range ((2 * lcorr + 1) * (2 * lcorr + 1)))
    (Finset.nonempty_range_iff.mpr (Nat.mul_ne_zero (Nat.succ_ne_zero _) (Nat.succ_ne_zero _)))
    fun p => cc (p / (2 * lcorr + 1) + lpad) (p % (2 * lcorr + 1) + lpad)

/-- Specification side (C5): the row-major-first position attaining the best
inner peak (ties broken like `np.argmax`), encoded as `py*(2*lcorr+1)+px`. -/
def specPeakIdx (lcorr lpad : ℕ) (cc : Surf) : ℕ :=
  (((Finset.range ((2 * lcorr + 1) * (2 * lcorr + 1))).filter fun p =>
      cc (p / (2 * lcorr + 1) + lpad) (p % (2 * lcorr + 1) + lpad) =
        specInnerPeak lcorr lpad cc).min).untop' 0

/-- Specification side (C5): the global peak of the surface with the
`2*lpad`-sized exclusion window around the best peak zeroed out (equivalently,
the clamped-at-0 best value outside the exclusion window). -/
def specSecondPeak (lcorr lpad : ℕ) (cc : Surf) : ℚ :=
  Finset.sup'
    (Finset.range ((2 * lcorr + 2 * lpad + 1) * (2 * lcorr + 2 * lpad + 1)))
    (Finset.nonempty_range_iff.mpr (Nat.mul_ne_zero (Nat.succ_ne_zero _) (Nat.succ_ne_zero _)))
    fun q =>
      if specPeakIdx lcorr lpad cc / (2 * lcorr + 1) ≤ q / (2 * lcorr + 2 * lpad + 1) ∧
          q / (2 * lcorr + 2 * lpad + 1) <
            specPeakIdx lcorr lpad cc / (2 * lcorr + 1) + 2 * lpad ∧
          specPeakIdx lcorr lpad cc % (2 * lcorr + 1) ≤ q % (2 * lcorr + 2 * lpad + 1) ∧
          q % (2 * lcorr + 2 * lpad + 1) <
            specPeakIdx lcorr lpad cc % (2 * lcorr + 1) + 2 * lpad
      then 0
      else cc (q / (2 * lcorr + 2 * lpad + 1)) (q % (2 * lcorr + 2 * lpad + 1))

/-- Specification side (C5): SNR as described by the claim — the ratio of the
best inner peak to the global peak outside the exclusion window. -/
def specSNR (lcorr lpad : ℕ) (cc : Surf) : FVal :=
  fdiv (specInnerPeak lcorr lpad cc) (specSecondPeak lcorr lpad cc)

/-- Concrete 3×3 surface (for `lcorr = 0, lpad = 1`): single positive peak at
the centre, zeros elsewhere. -/
def peakOnly3 : Surf := fun i j => if i = 1 ∧ j = 1 then 1 else 0

/-- Concrete all-negative 3×3 surface for the C10 counterexample. -/
def negOne3 : Surf := fun _ _ => -1

/-! ## SNR-gated smoothing loop of `phasecorr` (nonrigid.py 206-218) -/

/-- Blockwise application of the smoothing operator (`NRsm @ cc0` on the
block-flattened axis): block `n`'s surface becomes the `NRsm`-weighted mix of
all blocks' surfaces of the same frame. -/
def nrApply (NRsm : ℕ → ℕ → ℚ) (nb : ℕ) (c : ℕ → ℕ → Surf) : ℕ → ℕ → Surf :=
  fun n t y x => ∑ m ∈ Finset.range nb, NRsm n m * c m t y x

/-- The matrix square `NRsm @ NRsm` (Python's `NRsm @ NRsm @ cc0` associates
as `(NRsm @ NRsm) @ cc0`). -/
def nrSq (NRsm : ℕ → ℕ → ℚ) (nb : ℕ) : ℕ → ℕ → ℚ :=
  fun n m => ∑ k ∈ Finset.range nb, NRsm n k * NRsm k m

/-- The list `cc2 = [cc0, NRsm @ cc0, NRsm @ NRsm @ cc0]`, indexed by round
`j`, block `n`, frame `t`. -/
def cc2list (NRsm : ℕ → ℕ → ℚ) (nb : ℕ) (cc0 : ℕ → ℕ → Surf) : ℕ → ℕ → ℕ → Surf
  | 0 => cc0
  | 1 => nrApply NRsm nb cc0
  | _ + 2 => nrApply (nrSq NRsm nb) nb cc0

/-- State of the per-block smoothing loop: per-frame SNR values (seeded with
`snr = np.ones(nimg)`) and per-frame surfaces (`ccsm`, seeded with `cc2[0]`,
i.e. the raw correlation). -/
structure SmState where
  snr : ℕ → FVal
  ccsm : ℕ → Surf

/-- One iteration `j` of `for j, c2 in enumerate(cc2)` for a fixed block:
`ism = snr < snr_thresh`; when `np.sum(ism) == 0` the loop breaks (returning
the state unchanged models the break, since `ism` can only shrink from one
round to the next); otherwise frames in `ism` get `ccsm[n, ism] = cc` when
`j > 0` and their SNR recomputed on the round-`j` surface. -/
def smoothRound (θ : ℚ) (lcorr lpad T : ℕ) (c : ℕ → Surf) (j : ℕ)
    (st : SmState) : SmState :=
  if (List.range T).all (fun t => ! fvalLt (st.snr t) θ) then st
  else
    { snr := fun t =>
        if fvalLt (st.snr t) θ then getSNRframe lcorr lpad (c t) else st.snr t
      ccsm := fun t =>
        if fvalLt (st.snr t) θ ∧ 0 < j then c t else st.ccsm t }

/-- The full loop body for one block `n` (rounds `j = 0, 1, 2` over `cc2`),
from the initial state `snr = ones(nimg)`, `ccsm = cc2[0]`. -/
def smoothBlock (θ : ℚ) (lcorr lpad T : ℕ) (cc2 : ℕ → ℕ → ℕ → Surf) (n : ℕ) :
    SmState :=
  smoothRound θ lcorr lpad T (cc2 2 n) 2
    (smoothRound θ lcorr lpad T (cc2 1 n) 1
      (smoothRound θ lcorr lpad T (cc2 0 n) 0
        ⟨fun _ => FVal.fin 1, fun t => cc2 0 n t⟩))

/-- Concrete 3×3 surface with an ambiguous peak: raw SNR is `1/5`
(inner-window peak `1` at the centre, un-zeroed border value `5`). -/
def lowSnr3 : Surf := fun i j =>
  if i = 1 ∧ j = 1 then 1 else if i = 2 ∧ j = 2 then 5 else 0

/-- Two-block stack for the C2 counterexample: block 0 carries `lowSnr3`,
block 1 is identically zero (all frames). -/
def cc0pair : ℕ → ℕ → Surf := fun n _ => if n = 0 then lowSnr3 else fun _ _ => 0

/-- Uniform 2×2 row-stochastic smoothing matrix. -/
def NRsmHalf : ℕ → ℕ → ℚ := fun _ _ => 1 / 2

/-! ## `phasecorr` front end: `lcorr` and the correlation window
(nonrigid.py 180-202) -/

/-- `np.round`: banker's rounding (half to even) on an exact value. -/
def npRound (q : ℚ) : ℤ :=
  if q - ⌊q⌋ < 1 / 2 then ⌊q⌋
  else if 1 / 2 < q - ⌊q⌋ then ⌊q⌋ + 1
  else if 2 ∣ ⌊q⌋ then ⌊q⌋ else ⌊q⌋ + 1

/-- `lcorr = int(np.minimum(maxregshift, np.floor(np.minimum(ly, lx) / 2.) - lpad))`
with `maxregshift = np.round(maxregshiftNR)` (nonrigid.py 181-182).  The code
computes this value and proceeds; it performs NO validation that it is
positive. -/
def lcorrOf (ly lx : ℕ) (maxregshiftNR : ℚ) (lpad : ℕ) : ℤ :=
  min (npRound maxregshiftNR) ((((min ly lx) / 2 : ℕ) : ℤ) - (lpad : ℤ))

/-- FFT-periodic wrap of a window index (the `np.block` of the four corner
slices, nonrigid.py 197-202): window row `i < lhalf` reads source row
`ly - lhalf + i` (the `[-lhalf:]` slice); window row `i ≥ lhalf` reads source
row `i - lhalf` (the `[:lhalf+1]` slice). -/
def ccWrapIdx (L lhalf i : ℕ) : ℕ :=
  if i < lhalf then L - lhalf + i else i - lhalf

/-- The `(2*lhalf+1)²` near-zero-shift correlation window assembled from the
`ly×lx` inverse-FFT surface; a total function — no bounds or sign check on
`lcorr` happens before this slicing. -/
def ccWindow (ly lx lhalf : ℕ) (Yr : Surf) : Surf :=
  fun i j => Yr (ccWrapIdx ly lhalf i) (ccWrapIdx lx lhalf j)

/-- Concrete 2×2 frame surface for the C8 failing input: `Y[i,j] = 2*i + j`. -/
def yEx : Surf := fun i j => (i : ℚ) * 2 + j

/-! ## `mat_upsample` and the sub-pixel refinement
(nonrigid.py 37-44, 175, 226-238) -/

/-- Length of `larUP = np.arange(-lpad, lpad + .001, 1./subpixel)`:
`ceil((2*lpad + 0.001) * subpixel)` entries. -/
def nupOf (lpad subpixel : ℕ) : ℕ :=
  ⌈((2 * lpad : ℚ) + 1 / 1000) * subpixel⌉₊

/-- Shape of `Kmat` from `mat_upsample(lpad, subpixel)`:
`inv(kernelD(lar, lar)) @ kernelD(lar, larUP)` is `(2*lpad+1)² × nup²`. -/
def matUpsampleDims (lpad subpixel : ℕ) : ℕ × ℕ :=
  ((2 * lpad + 1) ^ 2, (nupOf lpad subpixel) ^ 2)

/-- Rational matrices with explicit dimensions (entries beyond the bounds
are irrelevant). -/
structure QMat where
  rows : ℕ
  cols : ℕ
  ent : ℕ → ℕ → ℚ

/-- NumPy matrix multiplication, which raises (modelled as `none`) unless the
inner dimensions agree. -/
def matmulChecked (A B : QMat) : Option QMat :=
  if A.cols = B.rows then
    some ⟨A.rows, B.cols, fun i k => ∑ j ∈ Finset.range A.cols, A.ent i j * B.ent j k⟩
  else none

/-- `ccb = ccmat.reshape(nb, -1) @ Kmat` as performed by `phasecorr`: the
patch matrix has `(2*lpad+1)²` columns from the CALLER's `lpad`, while `Kmat`
always comes from `mat_upsample(lpad=3)` — with its default `subpixel = 10` —
whatever `lpad`/`subpixel` were passed (nonrigid.py 175 and 233).  The
entries (transcendental Gaussian-kernel values) are abstract parameters,
since only the shapes decide whether the product is defined. -/
def phasecorrCCB (nb lpadArg : ℕ) (ccmatEnt KmatEnt : ℕ → ℕ → ℚ) : Option QMat :=
  matmulChecked ⟨nb, (2 * lpadArg + 1) ^ 2, ccmatEnt⟩
    ⟨(matUpsampleDims 3 10).1, (matUpsampleDims 3 10).2, KmatEnt⟩

/-- Fine-grid coordinate of column index `k` of the operator actually used:
`larUP[k] = -3 + k/10`, from `mat_upsample(lpad=3, subpixel=10)`. -/
def larUP3 (k : ℕ) : ℚ := -3 + (k : ℚ) / 10

/-- The sub-pixel shift combination computed at nonrigid.py 236-238:
`(fine_index - mdpt) / subpixel + (integer_peak - lcorr)`, where
`mdpt = nup // 2` comes from the cached operator (`nup = 61`, so `mdpt = 30`)
but `subpixel` is the caller's argument. -/
def refineShift (subpixel : ℕ) (fineIdx : ℕ) (intPeak lcorr : ℤ) : ℚ :=
  ((fineIdx : ℚ) - ((nupOf 3 10 / 2 : ℕ) : ℚ)) / (subpixel : ℚ) +
    ((intPeak - lcorr : ℤ) : ℚ)

section BlockLemmas

/-- Generic shape lemma: the doubly nested comprehension has length `ny * nx`. -/
theorem bind_range_map_length {α : Type} (ny nx : ℕ) (f : ℕ → ℕ → α) :
    ((List.range ny).flatMap fun iy => (List.range nx).map (f iy)).length = ny * nx := by
  induction ny with
  | zero => simp
  | succ m ih =>
      rw [List.range_succ, List.flatMap_append, List.length_append, ih]
      simp [Nat.succ_mul]

/-- Generic indexing lemma: entry `iy * nx + ix` of the doubly nested
comprehension is `f iy ix` (row-major order). -/
theorem bind_range_map_get {α : Type} (ny nx : ℕ) (f : ℕ → ℕ → α) (iy ix : ℕ)
    (hy : iy < ny) (hx : ix < nx) :
    ((List.range ny).flatMap fun iy => (List.range nx).map (f iy)).get? (iy * nx + ix) =
      some (f iy ix) := by
  induction ny with
  | zero => omega
  | succ m ih =>
      rw [List.range_succ, List.flatMap_append]
      rcases Nat.lt_succ_iff_lt_or_eq.1 hy with h | rfl
      · rw [List.get?_append]
        · exact ih h
        · rw [bind_range_map_length]
          calc iy * nx + ix < iy * nx + nx := by omega
            _ = (iy + 1) * nx := by ring
            _ ≤ m * nx := Nat.mul_le_mul_right nx h
      · rw [List.get?_append_right]
        · rw [bind_range_map_length]
          simp only [List.flatMap_cons, List.flatMap_nil, List.append_nil]
          rw [Nat.add_sub_cancel_left (n := iy * nx)]
          rw [List.get?_map, List.get?_range hx]
          rfl
        · rw [bind_range_map_length]; omega

/-- Exact value of `int(np.ceil(a / b))` for natural `a`, `b`. -/
theorem nat_ceil_div (a b : ℕ) (ha : 1 ≤ a) (hb : 1 ≤ b) :
    ⌈(a : ℚ) / b⌉₊ = (a + b - 1) / b := by
  have hb0 : (0 : ℚ) < b := by exact_mod_cast hb
  have hdm := Nat.div_add_mod (a + b - 1) b
  have hmod := Nat.mod_lt (a + b - 1) (show 0 < b from hb)
  set n := (a + b - 1) / b with hn
  set r := (a + b - 1) % b with hr
  have hn1 : 1 ≤ n := by
    rw [hn, Nat.le_div_iff_mul_le (show 0 < b from hb)]; omega
  obtain ⟨m, hm⟩ : ∃ m, n = m + 1 := ⟨n - 1, by omega⟩
  have hmul : b * n = b * m + b := by rw [hm]; ring
  have hcomm : m * b = b * m := Nat.mul_comm m b
  have hlow : m * b < a := by omega
  have hhigh : a ≤ n * b := by
    have hnb : n * b = b * m + b := by rw [hm]; ring
    omega
  rw [Nat.ceil_eq_iff (by omega)]
  constructor
  · rw [lt_div_iff hb0]
    have h' : (n - 1) * b < a := by
      have hm' : n - 1 = m := by omega
      rw [hm']; exact hlow
    calc ((n - 1 : ℕ) : ℚ) * b = ((n - 1) * b : ℕ) := by push_cast; ring
      _ < a := by exact_mod_cast h'
  · rw [div_le_iff hb0]
    calc (a : ℚ) ≤ ((n * b : ℕ) : ℚ) := by exact_mod_cast hhigh
      _ = (n : ℚ) * b := by push_cast; ring

/-- Facts about the block count when `B < L`: at least 2 blocks, and
`B * n > L` (the total nominal width strictly exceeds the axis). -/
theorem nblocks_facts (L B : ℕ) (hB : 1 ≤ B) (hBL : B < L) :
    2 ≤ (calculate_nblocks L B).2 ∧ L < B * (calculate_nblocks L B).2 := by
  have h : (calculate_nblocks L B).2 = (3 * L + 2 * B - 1) / (2 * B) := by
    simp [calculate_nblocks, if_neg (by omega : ¬ L ≤ B)]
  rw [h]
  have hdm := Nat.div_add_mod (3 * L + 2 * B - 1) (2 * B)
  have hmod := Nat.mod_lt (3 * L + 2 * B - 1) (show 0 < 2 * B by omega)
  set n := (3 * L + 2 * B - 1) / (2 * B) with hn
  set r := (3 * L + 2 * B - 1) % (2 * B) with hr
  have hbridge : 2 * B * n = 2 * (B * n) := by ring
  have h2 : 2 ≤ n := by
    rw [hn, Nat.le_div_iff_mul_le (show 0 < 2 * B by omega)]; omega
  exact ⟨h2, by omega⟩

/-- Per-axis pixel coverage of the blocks produced by `make_blocks`. -/
theorem axis_cover (L B : ℕ) (hB : 1 ≤ B) (hL : 1 ≤ L) (y : ℕ) (hy : y < L) :
    ∃ i < (calculate_nblocks L B).2,
      linStart L (calculate_nblocks L B).1 (calculate_nblocks L B).2 i ≤ y ∧
        y < linStart L (calculate_nblocks L B).1 (calculate_nblocks L B).2 i +
              (calculate_nblocks L B).1 := by
  by_cases hLB : L ≤ B
  · refine ⟨0, by simp [calculate_nblocks, hLB], ?_⟩
    simp [calculate_nblocks, hLB, linStart, hy]
  · have hBL : B < L := Nat.not_le.1 hLB
    obtain ⟨hn2, hmul⟩ := nblocks_facts L B hB hBL
    have hbs : (calculate_nblocks L B).1 = B := by simp [calculate_nblocks, hLB]
    set n := (calculate_nblocks L B).2 with hndef
    set d := n - 1 with hd
    have hd1 : 1 ≤ d := by omega
    set M := L - B with hM
    have hstart : ∀ i, linStart L (calculate_nblocks L B).1 n i = i * M / d := by
      intro i
      rw [hbs, linStart, if_neg (by omega), ← hM, ← hd]
    have hle := Nat.findGreatest_le (P := fun i => i * M / d ≤ y) d
    have hPi₀ : (Nat.findGreatest (fun i => i * M / d ≤ y) d) * M / d ≤ y :=
      Nat.findGreatest_spec (P := fun i => i * M / d ≤ y) (Nat.zero_le d) (by simp)
    set i₀ := Nat.findGreatest (fun i => i * M / d ≤ y) d with hi₀
    refine ⟨i₀, by omega, ?_, ?_⟩
    · rw [hstart]; exact hPi₀
    · rw [hstart, hbs]
      by_cases hi : i₀ = d
      · have hdd : d * M / d = M := Nat.mul_div_cancel_left M (by omega)
        rw [hi, hdd]; omega
      · have hlt : i₀ < d := lt_of_le_of_ne hle hi
        have hnot := Nat.findGreatest_is_greatest (P := fun i => i * M / d ≤ y)
          (n := d) (k := i₀ + 1) (by omega) (by omega)
        simp only [← hi₀, Nat.not_le] at hnot
        have hnd : n = d + 1 := by omega
        have hBn : B * n = B * d + B := by rw [hnd]; ring
        have hMlt : M < B * d := by omega
        have hMd : M / d ≤ B - 1 := by
          have hdiv : M / d < B := (Nat.div_lt_iff_lt_mul (by omega : 0 < d)).2 hMlt
          omega
        have hsplit : (i₀ + 1) * M / d ≤ i₀ * M / d + M / d + 1 := by
          have hexp : (i₀ + 1) * M = i₀ * M + M := by ring
          rw [hexp, Nat.add_div (by omega : 0 < d)]
          split <;> omega
        omega

/-- Per-axis upper bound: each block ends within the axis. -/
theorem axis_end_le (L B : ℕ) (hB : 1  ≤ B) (hL : 1 ≤ L) (i : ℕ)
    (hi : i < (calculate_nblocks L B).2) :
    linStart L (calculate_nblocks L B).1 (calculate_nblocks L B).2 i +
      (calculate_nblocks L B).1 ≤ L := by
  by_cases hLB : L ≤ B
  · have h1 : (calculate_nblocks L B).2 = 1 := by simp [calculate_nblocks, hLB]
    have h2 : (calculate_nblocks L B).1 = L := by simp [calculate_nblocks, hLB]
    rw [h1] at hi
    rw [h2, linStart]
    rw [h1]
    simp
  · have hBL : B < L := Nat.not_le.1 hLB
    obtain ⟨hn2, _⟩ := nblocks_facts L B hB hBL
    have hbs : (calculate_nblocks L B).1 = B := by simp [calculate_nblocks, hLB]
    set n := (calculate_nblocks L B).2
    rw [hbs, linStart, if_neg (by omega)]
    have hle : i * (L - B) / (n - 1) ≤ (L - B) := by
      calc i * (L - B) / (n - 1) ≤ (n - 1) * (L - B) / (n - 1) :=
            Nat.div_le_div_right (Nat.mul_le_mul_right _ (by omega))
        _ = L - B := Nat.mul_div_cancel_left _ (by omega)
    omega

/-- The block count along an axis is at least 1. -/
theorem nblocks_pos (L B : ℕ) (hB : 1 ≤ B) (hL : 1 ≤ L) :
    1 ≤ (calculate_nblocks L B).2 := by
  by_cases hLB : L ≤ B
  · simp [calculate_nblocks, hLB]
  · have := (nblocks_facts L B hB (Nat.not_le.1 hLB)).1
    omega

/-- `getD` form of the row-major indexing fact for `yblocks`/`xblocks`. -/
theorem blocks_getD (Ly Lx By Bx iy ix : ℕ)
    (hy : iy < (calculate_nblocks Ly By).2) (hx : ix < (calculate_nblocks Lx Bx).2) :
    (yblocks Ly Lx By Bx).getD (iy * (calculate_nblocks Lx Bx).2 + ix) (0, 0) =
      (linStart Ly (calculate_nblocks Ly By).1 (calculate_nblocks Ly By).2 iy,
       linStart Ly (calculate_nblocks Ly By).1 (calculate_nblocks Ly By).2 iy +
         (calculate_nblocks Ly By).1) ∧
    (xblocks Ly Lx By Bx).getD (iy * (calculate_nblocks Lx Bx).2 + ix) (0, 0) =
      (linStart Lx (calculate_nblocks Lx Bx).1 (calculate_nblocks Lx Bx).2 ix,
       linStart Lx (calculate_nblocks Lx Bx).1 (calculate_nblocks Lx Bx).2 ix +
         (calculate_nblocks Lx Bx).1) := by
  constructor
  · rw [List.getD_eq_getD_get?]
    have h := bind_range_map_get (calculate_nblocks Ly By).2 (calculate_nblocks Lx Bx).2
      (fun iy _ =>
        (linStart Ly (calculate_nblocks Ly By).1 (calculate_nblocks Ly By).2 iy,
         linStart Ly (calculate_nblocks Ly By).1 (calculate_nblocks Ly By).2 iy +
           (calculate_nblocks Ly By).1)) iy ix hy hx
    simp only [yblocks]
    rw [h]
    rfl
  · rw [List.getD_eq_getD_get?]
    have h := bind_range_map_get (calculate_nblocks Ly By).2 (calculate_nblocks Lx Bx).2
      (fun _ ix =>
        (linStart Lx (calculate_nblocks Lx Bx).1 (calculate_nblocks Lx Bx).2 ix,
         linStart Lx (calculate_nblocks Lx Bx).1 (calculate_nblocks Lx Bx).2 ix +
           (calculate_nblocks Lx Bx).1)) iy ix hy hx
    simp only [xblocks]
    rw [h]
    rfl
end BlockLemmas

/-- C1: for frame dimensions `H, W ≥ 1` and nominal block size `≥ 1`,
`make_blocks` produces blocks listed in row-major order (index `iy*nx + ix`),
every pixel lies in at least one block, no block extends past the frame
bounds, and the per-axis block count is `ceil(1.5*L/B)` when `B < L` and
exactly `1` (with block size clamped to `L`) otherwise. -/
theorem C1_partitioner_geometry (Ly Lx By Bx : ℕ)
    (hLy : 1 ≤ Ly) (hLx : 1 ≤ Lx) (hBy : 1 ≤ By) (hBx : 1 ≤ Bx) :
    (∀ iy < (calculate_nblocks Ly By).2, ∀ ix < (calculate_nblocks Lx Bx).2,
      (yblocks Ly Lx By Bx).getD (iy * (calculate_nblocks Lx Bx).2 + ix) (0, 0) =
        (linStart Ly (calculate_nblocks Ly By).1 (calculate_nblocks Ly By).2 iy,
         linStart Ly (calculate_nblocks Ly By).1 (calculate_nblocks Ly By).2 iy +
           (calculate_nblocks Ly By).1) ∧
      (xblocks Ly Lx By Bx).getD (iy * (calculate_nblocks Lx Bx).2 + ix) (0, 0) =
        (linStart Lx (calculate_nblocks Lx Bx).1 (calculate_nblocks Lx Bx).2 ix,
         linStart Lx (calculate_nblocks Lx Bx).1 (calculate_nblocks Lx Bx).2 ix +
           (calculate_nblocks Lx Bx).1)) ∧
    (∀ y < Ly, ∀ x < Lx,
      ∃ k < (calculate_nblocks Ly By).2 * (calculate_nblocks Lx Bx).2,
        ((yblocks Ly Lx By Bx).getD k (0, 0)).1 ≤ y ∧
        y < ((yblocks Ly Lx By Bx).getD k (0, 0)).2 ∧
        ((xblocks Ly Lx By Bx).getD k (0, 0)).1 ≤ x ∧
        x < ((xblocks Ly Lx By Bx).getD k (0, 0)).2) ∧
    (∀ k < (calculate_nblocks Ly By).2 * (calculate_nblocks Lx Bx).2,
      ((yblocks Ly Lx By Bx).getD k (0, 0)).2 ≤ Ly ∧
      ((xblocks Ly Lx By Bx).getD k (0, 0)).2 ≤ Lx) ∧
    ((By < Ly → (calculate_nblocks Ly By).1 = By ∧
        (calculate_nblocks Ly By).2 = ⌈(3 / 2 : ℚ) * Ly / By⌉₊) ∧
     (Ly ≤ By → (calculate_nblocks Ly By).1 = Ly ∧ (calculate_nblocks Ly By).2 = 1) ∧
     (Bx < Lx → (calculate_nblocks Lx Bx).1 = Bx ∧
        (calculate_nblocks Lx Bx).2 = ⌈(3 / 2 : ℚ) * Lx / Bx⌉₊) ∧
     (Lx ≤ Bx → (calculate_nblocks Lx Bx).1 = Lx ∧ (calculate_nblocks Lx Bx).2 = 1)) := by
  have hny := nblocks_pos Ly By hBy hLy
  have hnx := nblocks_pos Lx Bx hBx hLx
  refine ⟨?_, ?_, ?_, ?_⟩
  · intro iy hiy ix hix
    exact blocks_getD Ly Lx By Bx iy ix hiy hix
  · intro y hy x hx
    obtain ⟨iy, hiy, hy1, hy2⟩ := axis_cover Ly By hBy hLy y hy
    obtain ⟨ix, hix, hx1, hx2⟩ := axis_cover Lx Bx hBx hLx x hx
    obtain ⟨hYD, hXD⟩ := blocks_getD Ly Lx By Bx iy ix hiy hix
    refine ⟨iy * (calculate_nblocks Lx Bx).2 + ix, ?_, ?_⟩
    · calc iy * (calculate_nblocks Lx Bx).2 + ix
          < iy * (calculate_nblocks Lx Bx).2 + (calculate_nblocks Lx Bx).2 := by omega
        _ = (iy + 1) * (calculate_nblocks Lx Bx).2 := by ring
        _ ≤ (calculate_nblocks Ly By).2 * (calculate_nblocks Lx Bx).2 :=
            Nat.mul_le_mul_right _ (by omega)
    · rw [hYD, hXD]
      exact ⟨hy1, hy2, hx1, hx2⟩
  · intro k hk
    have hx : k % (calculate_nblocks Lx Bx).2 < (calculate_nblocks Lx Bx).2 :=
      Nat.mod_lt k (by omega)
    have hy : k / (calculate_nblocks Lx Bx).2 < (calculate_nblocks Ly By).2 := by
      rw [Nat.div_lt_iff_lt_mul (by omega)]
      omega
    have hksplit : k = (k / (calculate_nblocks Lx Bx).2) * (calculate_nblocks Lx Bx).2 +
        k % (calculate_nblocks Lx Bx).2 := by
      rw [Nat.mul_comm]
      exact (Nat.div_add_mod k (calculate_nblocks Lx Bx).2).symm
    obtain ⟨hYD, hXD⟩ := blocks_getD Ly Lx By Bx _ _ hy hx
    rw [hksplit, hYD, hXD]
    exact ⟨axis_end_le Ly By hBy hLy _ hy, axis_end_le Lx Bx hBx hLx _ hx⟩
  · refine ⟨fun h => ⟨?_, ?_⟩, fun h => ⟨?_, ?_⟩, fun h => ⟨?_, ?_⟩, fun h => ⟨?_, ?_⟩⟩
    · simp [calculate_nblocks, if_neg (by omega : ¬ Ly ≤ By)]
    · rw [show (3 / 2 : ℚ) * Ly / By = ((3 * Ly : ℕ) : ℚ) / ((2 * By : ℕ) : ℚ) by
        push_cast; ring]
      rw [nat_ceil_div _ _ (by omega) (by omega)]
      simp [calculate_nblocks, if_neg (by omega : ¬ Ly ≤ By)]
    · simp [calculate_nblocks, h]
    · simp [calculate_nblocks, h]
    · simp [calculate_nblocks, if_neg (by omega : ¬ Lx ≤ Bx)]
    · rw [show (3 / 2 : ℚ) * Lx / Bx = ((3 * Lx : ℕ) : ℚ) / ((2 * Bx : ℕ) : ℚ) by
        push_cast; ring]
      rw [nat_ceil_div _ _ (by omega) (by omega)]
      simp [calculate_nblocks, if_neg (by omega : ¬ Lx ≤ Bx)]
    · simp [calculate_nblocks, h]
    · simp [calculate_nblocks, h]

/-- C1 witness: concrete instance `H = 5, W = 4, block size (3, 2)`. -/
theorem C1_partitioner_geometry_witness :
    ((1 : ℕ) ≤ 5 ∧ (1 : ℕ) ≤ 4 ∧ (1 : ℕ) ≤ 3 ∧ (1 : ℕ) ≤ 2) ∧
    (∀ y < 5, ∀ x < 4,
      ∃ k < (calculate_nblocks 5 3).2 * (calculate_nblocks 4 2).2,
        ((yblocks 5 4 3 2).getD k (0, 0)).1 ≤ y ∧
        y < ((yblocks 5 4 3 2).getD k (0, 0)).2 ∧
        ((xblocks 5 4 3 2).getD k (0, 0)).1 ≤ x ∧
        x < ((xblocks 5 4 3 2).getD k (0, 0)).2) :=
  ⟨⟨by decide, by decide, by decide, by decide⟩,
   (C1_partitioner_geometry 5 4 3 2 (by decide) (by decide) (by decide) (by decide)).2.1⟩

/-- C7 (amended): for `B < L`, the block start offsets are the `n` evenly
spaced linear-interpolation values from `0` to `L - B` each TRUNCATED to an
integer (floored, since they are non-negative) — not rounded to nearest —
and the first block starts at `0` while the last ends exactly at `L`. -/
theorem C7_linspace_floor (L B : ℕ) (hB : 1 ≤ B) (hBL : B < L) :
    (∀ i < (calculate_nblocks L B).2,
      linStart L (calculate_nblocks L B).1 (calculate_nblocks L B).2 i =
        ⌊(i : ℚ) * ((L : ℚ) - ((calculate_nblocks L B).1 : ℚ)) /
            (((calculate_nblocks L B).2 : ℚ) - 1)⌋₊) ∧
    linStart L (calculate_nblocks L B).1 (calculate_nblocks L B).2 0 = 0 ∧
    linStart L (calculate_nblocks L B).1 (calculate_nblocks L B).2
      ((calculate_nblocks L B).2 - 1) + (calculate_nblocks L B).1 = L := by
  have hL : 1 ≤ L := by omega
  obtain ⟨hn2, _⟩ := nblocks_facts L B hB hBL
  have hbs : (calculate_nblocks L B).1 = B := by
    simp [calculate_nblocks, if_neg (by omega : ¬ L ≤ B)]
  set n := (calculate_nblocks L B).2 with hn
  refine ⟨?_, ?_, ?_⟩
  · intro i hi
    rw [hbs, linStart, if_neg (by omega)]
    have hc1 : ((L : ℚ) - (B : ℚ)) = ((L - B : ℕ) : ℚ) := by
      rw [Nat.cast_sub (by omega)]
    have hc2 : ((n : ℚ) - 1) = ((n - 1 : ℕ) : ℚ) := by
      rw [Nat.cast_sub (by omega)]; simp
    rw [hc1, hc2, show (i : ℚ) * ((L - B : ℕ) : ℚ) = ((i * (L - B) : ℕ) : ℚ) by push_cast; ring]
    rw [Nat.floor_div_nat, Nat.floor_natCast]
  · rw [linStart]
    split <;> simp
  · rw [hbs, linStart, if_neg (by omega)]
    rw [Nat.mul_div_cancel_left _ (by omega : 0 < n - 1)]
    omega

/-- C7 witness for the amended statement: `L = 8, B = 3`. -/
theorem C7_linspace_floor_witness :
    (1 : ℕ) ≤ 3 ∧ (3 : ℕ) < 8 ∧
    ((∀ i < (calculate_nblocks 8 3).2,
        linStart 8 (calculate_nblocks 8 3).1 (calculate_nblocks 8 3).2 i =
          ⌊(i : ℚ) * ((8 : ℚ) - ((calculate_nblocks 8 3).1 : ℚ)) /
              (((calculate_nblocks 8 3).2 : ℚ) - 1)⌋₊) ∧
      linStart 8 (calculate_nblocks 8 3).1 (calculate_nblocks 8 3).2 0 = 0 ∧
      linStart 8 (calculate_nblocks 8 3).1 (calculate_nblocks 8 3).2
        ((calculate_nblocks 8 3).2 - 1) + (calculate_nblocks 8 3).1 = 8) :=
  ⟨by decide, by decide, C7_linspace_floor 8 3 (by decide) (by decide)⟩

/-- C7 counterexample: for `L = 8, B = 3` the code produces 4 blocks with
second offset `linspace(0, 5, 4)[1] = 5/3` truncated to `1`, whereas rounding
to the nearest integer (as the claim states) would give `2`. -/
theorem C7_counterexample :
    calculate_nblocks 8 3 = (3, 4) ∧
    linStart 8 3 4 1 = 1 ∧
    roundNearest ((1 : ℚ) * ((8 : ℚ) - 3) / ((4 : ℚ) - 1)) = 2 ∧
    ((linStart 8 3 4 1 : ℤ) ≠ roundNearest ((1 : ℚ) * ((8 : ℚ) - 3) / ((4 : ℚ) - 1))) := by
  have h2 : roundNearest ((1 : ℚ) * ((8 : ℚ) - 3) / ((4 : ℚ) - 1)) = 2 := by
    rw [roundNearest,
      show (1 : ℚ) * ((8 : ℚ) - 3) / ((4 : ℚ) - 1) + 1 / 2 = 13 / 6 by norm_num]
    rw [Int.floor_eq_iff]
    norm_num
  refine ⟨by decide, by decide, h2, ?_⟩
  rw [h2]
  decide

/-- C6: every row of the block-smoothing operator `NRsm` built by
`make_blocks` sums to exactly 1 — hence certainly within the claimed `1e-5`
tolerance — for any block counts `ny, nx ≥ 1` and any positive entrywise
kernel `g` (as `d ↦ exp(-d)` is). -/
theorem C6_NRsm_rows_sum_to_one (g : ℕ → ℚ) (hg : ∀ d, 0 < g d) (ny nx : ℕ)
    (hny : 1 ≤ ny) (hnx : 1 ≤ nx) (q : ℕ) :
    (∑ p ∈ Finset.range (ny * nx), NRsmEnt g ny nx q p) = 1 ∧
    |(∑ p ∈ Finset.range (ny * nx), NRsmEnt g ny nx q p) - 1| ≤ 1 / 100000 := by
  have hne : (Finset.range (ny * nx)).Nonempty :=
    Finset.nonempty_range_iff.mpr (Nat.mul_ne_zero (by omega) (by omega))
  have hpos : 0 < kernelD2colSum g ny nx q :=
    Finset.sum_pos (fun p _ => hg _) hne
  have hsum : (∑ p ∈ Finset.range (ny * nx), NRsmEnt g ny nx q p) = 1 := by
    unfold NRsmEnt
    rw [← Finset.sum_div]
    have hnum : (∑ p ∈ Finset.range (ny * nx), kernelD2R g nx p q) =
        kernelD2colSum g ny nx q := rfl
    rw [hnum]
    exact div_self (ne_of_gt hpos)
  exact ⟨hsum, by rw [hsum]; norm_num⟩

/-- C6 witness: a 1×1 block grid with the constant kernel. -/
theorem C6_NRsm_rows_sum_to_one_witness :
    (∀ d : ℕ, (0 : ℚ) < (fun _ : ℕ => (1 : ℚ)) d) ∧ (1 : ℕ) ≤ 1 ∧
    ((∑ p ∈ Finset.range (1 * 1), NRsmEnt (fun _ => 1) 1 1 0 p) = 1 ∧
     |(∑ p ∈ Finset.range (1 * 1), NRsmEnt (fun _ => 1) 1 1 0 p) - 1| ≤ 1 / 100000) :=
  ⟨fun _ => one_pos, le_refl 1,
   C6_NRsm_rows_sum_to_one (fun _ => 1) (fun _ => one_pos) 1 1 (le_refl 1) (le_refl 1) 0⟩

/-- Clamping commutes with the `+1` step for non-negative base indices: the
code's `yf1 = min(L-1, yf+1)` equals the claim's clamp of `floor + 1`. -/
theorem clampIdx_succ (L : ℕ) (hL : 1 ≤ L) (k : ℤ) (hk : 0 ≤ k) :
    min (L - 1) (clampIdx L k + 1) = clampIdx L (k + 1) := by
  simp only [clampIdx]
  omega

/-- C3 (amended): `map_coordinates` truncates coordinates toward zero
(`astype(int32)`), which agrees with the claimed floor-clamp-blend bilinear
interpolation for all NON-NEGATIVE coordinates (including out-of-range ones
beyond the upper border). -/
theorem C3_trunc_bilinear (I : Surf) (Ly Lx : ℕ) (yc xc : ℚ)
    (hLy : 1 ≤ Ly) (hLx : 1 ≤ Lx) (hyc : 0 ≤ yc) (hxc : 0 ≤ xc) :
    map_coordinates I Ly Lx yc xc = bilinearFloorClamp I Ly Lx yc xc := by
  have hty : ratTrunc yc = ⌊yc⌋ := if_pos hyc
  have htx : ratTrunc xc = ⌊xc⌋ := if_pos hxc
  have hfy : (0 : ℤ) ≤ ⌊yc⌋ := Int.floor_nonneg.mpr hyc
  have hfx : (0 : ℤ) ≤ ⌊xc⌋ := Int.floor_nonneg.mpr hxc
  have h1 := clampIdx_succ Ly hLy ⌊yc⌋ hfy
  have h2 := clampIdx_succ Lx hLx ⌊xc⌋ hfx
  simp only [map_coordinates, bilinearFloorClamp, hty, htx, h1, h2]

/-- C3 witness (for the amended statement): a positive fractional coordinate
on the concrete 2×1 image. -/
theorem C3_trunc_bilinear_witness :
    (1 : ℕ) ≤ 2 ∧ (1 : ℕ) ≤ 1 ∧ (0 : ℚ) ≤ 3 / 2 ∧ (0 : ℚ) ≤ 0 ∧
    map_coordinates img2x1 2 1 (3 / 2) 0 = bilinearFloorClamp img2x1 2 1 (3 / 2) 0 :=
  ⟨by decide, by decide, by norm_num, le_refl 0,
   C3_trunc_bilinear img2x1 2 1 (3 / 2) 0 (by decide) (by decide) (by norm_num) (le_refl 0)⟩

/-- C3 counterexample: at the negative fractional coordinate `yc = -1/2` the
code extrapolates (truncation gives a negative fractional weight), while the
claimed floor-and-clamp semantics stays inside the image: the two differ
(`-5` vs `0`) on the image `(0, 10)ᵀ`. -/
theorem C3_counterexample :
    map_coordinates img2x1 2 1 (-(1 : ℚ) / 2) 0 = -5 ∧
    bilinearFloorClamp img2x1 2 1 (-(1 : ℚ) / 2) 0 = 0 ∧
    map_coordinates img2x1 2 1 (-(1 : ℚ) / 2) 0 ≠
      bilinearFloorClamp img2x1 2 1 (-(1 : ℚ) / 2) 0 := by
  have hmc : map_coordinates img2x1 2 1 (-(1 : ℚ) / 2) 0 = -5 := by
    have ht : ratTrunc (-(1 : ℚ) / 2) = 0 := by
      rw [ratTrunc, if_neg (by norm_num)]
      rw [show ⌈-(1 : ℚ) / 2⌉ = 0 from by
        rw [Int.ceil_eq_iff] <;> norm_num]
    have ht0 : ratTrunc (0 : ℚ) = 0 := by
      rw [ratTrunc, if_pos le_rfl]; simp
    simp only [map_coordinates, ht, ht0]
    norm_num [clampIdx, img2x1]
  have hbl : bilinearFloorClamp img2x1 2 1 (-(1 : ℚ) / 2) 0 = 0 := by
    have hf : ⌊-(1 : ℚ) / 2⌋ = -1 := by
      rw [Int.floor_eq_iff] <;> norm_num
    have hf0 : ⌊(0 : ℚ)⌋ = 0 := by simp
    simp only [bilinearFloorClamp, hf, hf0]
    norm_num [clampIdx, img2x1]
  exact ⟨hmc, hbl, by rw [hmc, hbl]; norm_num⟩

/-- C4: applying the Resampler with the all-zero displacement field and the
identity base meshgrid returns every frame unchanged (exactly, in the exact
arithmetic model; NumPy only promotes the dtype to float). -/
theorem C4_zero_shift_identity (data : ℕ → Surf) (Ly Lx t i j : ℕ)
    (hi : i < Ly) (hj : j < Lx) :
    shift_coordinates data zeroField zeroField baseMeshY baseMeshX Ly Lx t i j =
      data t i j := by
  simp only [shift_coordinates, zeroField, baseMeshY, baseMeshX, add_zero]
  have hty : ratTrunc (i : ℚ) = (i : ℤ) := by
    rw [ratTrunc, if_pos (by positivity)]
    exact_mod_cast Int.floor_natCast i
  have htx : ratTrunc (j : ℚ) = (j : ℤ) := by
    rw [ratTrunc, if_pos (by positivity)]
    exact_mod_cast Int.floor_natCast j
  have hyf : clampIdx Ly (i : ℤ) = i := by simp only [clampIdx]; omega
  have hxf : clampIdx Lx (j : ℤ) = j := by simp only [clampIdx]; omega
  have hy0 : (i : ℚ) - ((i : ℤ) : ℚ) = 0 := by push_cast; ring
  have hx0 : (j : ℚ) - ((j : ℤ) : ℚ) = 0 := by push_cast; ring
  simp only [map_coordinates, hty, htx, hyf, hxf, hy0, hx0]
  ring

/-- C4 witness: a constant one-frame stack at the only pixel of a 1×1 frame. -/
theorem C4_zero_shift_identity_witness :
    (0 : ℕ) < 1 ∧
    shift_coordinates (fun _ _ _ => (7 : ℚ)) zeroField zeroField baseMeshY baseMeshX
      1 1 0 0 0 = (fun _ _ _ => (7 : ℚ)) 0 0 0 :=
  ⟨Nat.zero_lt_one,
   C4_zero_shift_identity (fun _ _ _ => (7 : ℚ)) 1 1 0 0 0 Nat.zero_lt_one Nat.zero_lt_one⟩

/-! ### List lemmas for `npAmax` / `npArgmax` -/

/-- Every element of a list is bounded by `npAmax`. -/
theorem le_npAmax (l : List ℚ) (a : ℚ) (ha : a ∈ l) : a ≤ npAmax l := by
  induction l with
  | nil => simp at ha
  | cons b rest ih =>
      cases rest with
      | nil =>
          simp only [List.mem_singleton] at ha
          subst ha
          exact le_of_eq rfl
      | cons c r =>
          have he : npAmax (b :: c :: r) = max b (npAmax (c :: r)) := rfl
          rw [he]
          rcases List.mem_cons.1 ha with rfl | h
          · exact le_max_left _ _
          · exact le_trans (ih h) (le_max_right _ _)

/-- `npAmax` of a non-empty list is attained. -/
theorem npAmax_mem (l : List ℚ) (h : l ≠ []) : npAmax l ∈ l := by
  induction l with
  | nil => exact absurd rfl h
  | cons b rest ih =>
      cases rest with
      | nil => exact List.mem_singleton.2 rfl
      | cons c r =>
          have he : npAmax (b :: c :: r) = max b (npAmax (c :: r)) := rfl
          rw [he]
          rcases le_total b (npAmax (c :: r)) with hb | hb
          · rw [max_eq_right hb]
            exact List.mem_cons_of_mem _ (ih (by simp))
          · rw [max_eq_left hb]
            exact List.mem_cons_self _ _

/-- `firstIdxGe` is a lower bound for every index holding a value `≥ m`. -/
theorem firstIdxGe_le (m : ℚ) (l : List ℚ) (k : ℕ) (b : ℚ)
    (hk : l.get? k = some b) (hb : m ≤ b) : firstIdxGe m l ≤ k := by
  induction l generalizing k with
  | nil => simp at hk
  | cons a rest ih =>
      show (if m ≤ a then 0 else firstIdxGe m rest + 1) ≤ k
      split_ifs with hma
      · omega
      · cases k with
        | zero =>
            simp only [List.get?] at hk
            injection hk with hk
            subst hk
            exact absurd hb hma
        | succ k' =>
            simp only [List.get?] at hk
            have := ih k' hk
            omega

/-- When some value reaches `m`, `firstIdxGe` lands on such a value. -/
theorem firstIdxGe_get? (m : ℚ) (l : List ℚ) (h : ∃ b ∈ l, m ≤ b) :
    ∃ b, l.get? (firstIdxGe m l) = some b ∧ m ≤ b := by
  induction l with
  | nil => simp at h
  | cons a rest ih =>
      show ∃ b, (a :: rest).get? (if m ≤ a then 0 else firstIdxGe m rest + 1) = some b ∧ m ≤ b
      split_ifs with hma
      · exact ⟨a, rfl, hma⟩
      · obtain ⟨b, hbmem, hmb⟩ := h
        rcases List.mem_cons.1 hbmem with rfl | hbr
        · exact absurd hmb hma
        · obtain ⟨b', hb', hmb'⟩ := ih ⟨b, hbr, hmb⟩
          exact ⟨b', by simpa using hb', hmb'⟩

/-- `np.argmax` of a non-empty list is a valid index. -/
theorem npArgmax_lt_length (l : List ℚ) (h : l ≠ []) : npArgmax l < l.length := by
  obtain ⟨b, hb, _⟩ :=
    firstIdxGe_get? (npAmax l) l ⟨npAmax l, npAmax_mem l h, le_refl _⟩
  obtain ⟨hlt, -⟩ := List.get?_eq_some.1 hb
  exact hlt

/-- Indexing a mapped range. -/
theorem range_map_get? {α : Type} (N p : ℕ) (f : ℕ → α) (hp : p < N) :
    ((List.range N).map f).get? p = some (f p) := by
  rw [List.get?_map, List.get?_range hp]
  rfl

/-- `np.amax` over a row-major flattening agrees with the `Finset` supremum. -/
theorem npAmax_range_map (N : ℕ) (hN : N ≠ 0) (f : ℕ → ℚ)
    (H : (Finset.range N).Nonempty) :
    npAmax ((List.range N).map f) = (Finset.range N).sup' H f := by
  have hne : (List.range N).map f ≠ [] := by
    intro hc
    have : ((List.range N).map f).length = N := by simp
    rw [hc] at this
    simp at this
    omega
  apply le_antisymm
  · obtain ⟨p, hpl, hfp⟩ := List.mem_map.1 (npAmax_mem _ hne)
    rw [← hfp]
    exact Finset.le_sup' f (Finset.mem_range.2 (List.mem_range.1 hpl))
  · apply Finset.sup'_le
    intro p hp
    exact le_npAmax _ _
      (List.mem_map.2 ⟨p, List.mem_range.2 (Finset.mem_range.1 hp), rfl⟩)

/-- `np.argmax` (first index attaining the maximum, row-major) agrees with
the least element of the `Finset` of maximising positions. -/
theorem npArgmax_range_map (N : ℕ) (hN : N ≠ 0) (f : ℕ → ℚ)
    (H : (Finset.range N).Nonempty) :
    npArgmax ((List.range N).map f) =
      (((Finset.range N).filter fun p => f p = (Finset.range N).sup' H f).min).untop' 0 := by
  set l := (List.range N).map f with hl
  have hlen : l.length = N := by simp [hl]
  have hne : l ≠ [] := by
    intro hc
    rw [hc] at hlen
    simp at hlen
    omega
  have hAmax : npAmax l = (Finset.range N).sup' H f := npAmax_range_map N hN f H
  have hfilter_ne :
      ((Finset.range N).filter fun p => f p = (Finset.range N).sup' H f).Nonempty := by
    obtain ⟨i, hi, hieq⟩ := Finset.exists_mem_eq_sup' H f
    exact ⟨i, Finset.mem_filter.2 ⟨hi, hieq.symm⟩⟩
  rw [← Finset.coe_min' hfilter_ne, WithTop.untop'_coe]
  set m₀ := ((Finset.range N).filter fun p => f p = (Finset.range N).sup' H f).min'
    hfilter_ne with hm₀
  have hm₀S := Finset.min'_mem _ hfilter_ne
  rw [← hm₀] at hm₀S
  have hm₀N : m₀ < N := Finset.mem_range.1 (Finset.mem_filter.1 hm₀S).1
  have hm₀f : f m₀ = (Finset.range N).sup' H f := (Finset.mem_filter.1 hm₀S).2
  apply le_antisymm
  · apply firstIdxGe_le (npAmax l) l m₀ (f m₀) (range_map_get? N m₀ f hm₀N)
    rw [hAmax, hm₀f]
  · obtain ⟨b, hgetb, hmb⟩ :=
      firstIdxGe_get? (npAmax l) l ⟨npAmax l, npAmax_mem l hne, le_refl _⟩
    have hlt : npArgmax l < N := by
      have := npArgmax_lt_length l hne
      omega
    have hfb : f (npArgmax l) = b := by
      have hg := range_map_get? N (npArgmax l) f hlt
      rw [← hl] at hg
      rw [show l.get? (npArgmax l) = l.get? (firstIdxGe (npAmax l) l) from rfl] at hg
      rw [hgetb] at hg
      injection hg with hg
      exact hg.symm
    have hble : b ≤ npAmax l := le_npAmax l b (List.get?_mem hgetb)
    have hbA : f (npArgmax l) = (Finset.range N).sup' H f := by
      rw [hfb, ← hAmax]
      exact le_antisymm hble hmb
    exact Finset.min'_le _ _ (Finset.mem_filter.2 ⟨Finset.mem_range.2 hlt, hbA⟩)

/-- The peak position found by `getSNR` agrees with the specification-side
least (row-major first) maximising position. -/
theorem snr_peak_idx_eq (lcorr lpad : ℕ) (cc : Surf) :
    npArgmax (innerFlat lcorr lpad cc) = specPeakIdx lcorr lpad cc := by
  exact npArgmax_range_map ((2 * lcorr + 1) * (2 * lcorr + 1))
    (Nat.mul_ne_zero (Nat.succ_ne_zero _) (Nat.succ_ne_zero _))
    (fun p => cc (p / (2 * lcorr + 1) + lpad) (p % (2 * lcorr + 1) + lpad)) _

/-- The peak position is inside the inner window. -/
theorem specPeakIdx_lt (lcorr lpad : ℕ) (cc : Surf) :
    specPeakIdx lcorr lpad cc < (2 * lcorr + 1) * (2 * lcorr + 1) := by
  rw [← snr_peak_idx_eq]
  have hne : innerFlat lcorr lpad cc ≠ [] := by
    intro hc
    have hlen : (innerFlat lcorr lpad cc).length =
        (2 * lcorr + 1) * (2 * lcorr + 1) := by simp [innerFlat]
    rw [hc] at hlen
    simp at hlen
  have := npArgmax_lt_length _ hne
  have hlen : (innerFlat lcorr lpad cc).length =
      (2 * lcorr + 1) * (2 * lcorr + 1) := by simp [innerFlat]
  omega

/-- C5: `getSNR` returns, per frame, exactly the ratio of the best peak in
the inner `(2*lcorr+1)`-wide window to the global peak of the surface with
the `2*lpad`-sized exclusion window around that best peak zeroed out
(peak over second-best-outside-exclusion, as an IEEE division). -/
theorem C5_getSNR_formula (lcorr lpad : ℕ) (hlpad : 1 ≤ lpad) (cc : Surf) :
    getSNRframe lcorr lpad cc = specSNR lcorr lpad cc := by
  have hnum : snrX1max lcorr lpad cc = specInnerPeak lcorr lpad cc :=
    npAmax_range_map ((2 * lcorr + 1) * (2 * lcorr + 1))
      (Nat.mul_ne_zero (Nat.succ_ne_zero _) (Nat.succ_ne_zero _))
      (fun p => cc (p / (2 * lcorr + 1) + lpad) (p % (2 * lcorr + 1) + lpad)) _
  have hidx := snr_peak_idx_eq lcorr lpad cc
  set F := 2 * lcorr + 2 * lpad + 1 with hF
  have hFpos : 0 < F := by omega
  have hzmax : npAmax (zeroedFlat lcorr lpad cc) =
      Finset.sup' (Finset.range (F * F))
        (Finset.nonempty_range_iff.mpr (Nat.mul_ne_zero (by omega) (by omega)))
        (fun q => snrZeroed lcorr lpad cc (q / F) (q % F)) := by
    exact npAmax_range_map (F * F) (Nat.mul_ne_zero (by omega) (by omega))
      (fun q => snrZeroed lcorr lpad cc (q / F) (q % F)) _
  have hfun : ∀ q, snrZeroed lcorr lpad cc (q / F) (q % F) =
      (if specPeakIdx lcorr lpad cc / (2 * lcorr + 1) ≤ q / F ∧
          q / F < specPeakIdx lcorr lpad cc / (2 * lcorr + 1) + 2 * lpad ∧
          specPeakIdx lcorr lpad cc % (2 * lcorr + 1) ≤ q % F ∧
          q % F < specPeakIdx lcorr lpad cc % (2 * lcorr + 1) + 2 * lpad
        then 0 else cc (q / F) (q % F)) := by
    intro q
    rw [snrZeroed, snrYpk, snrXpk, hidx]
  have hsup : npAmax (zeroedFlat lcorr lpad cc) = specSecondPeak lcorr lpad cc := by
    rw [hzmax, specSecondPeak]
    exact Finset.sup'_congr _ rfl (fun q _ => hfun q)
  -- the zeroed surface always contains a zero (the peak pixel itself is
  -- inside the exclusion square when lpad ≥ 1), so the sup is ≥ 0 and the
  -- `np.maximum(0, ·)` clamp is the identity here
  have h0le : (0 : ℚ) ≤ specSecondPeak lcorr lpad cc := by
    set py := specPeakIdx lcorr lpad cc / (2 * lcorr + 1) with hpy
    set px := specPeakIdx lcorr lpad cc % (2 * lcorr + 1) with hpx
    have hpk := specPeakIdx_lt lcorr lpad cc
    have hpyW : py < 2 * lcorr + 1 := by
      rw [hpy, Nat.div_lt_iff_lt_mul (by omega)]
      omega
    have hpxW : px < 2 * lcorr + 1 := Nat.mod_lt _ (by omega)
    set q₀ := py * F + px with hq₀
    have hq₀lt : q₀ < F * F := by
      calc py * F + px < py * F + F := by omega
        _ = (py + 1) * F := by ring
        _ ≤ F * F := Nat.mul_le_mul_right _ (by omega)
    have hdiv : q₀ / F = py := by
      rw [hq₀, Nat.mul_comm py F, Nat.mul_add_div hFpos, Nat.div_eq_of_lt (by omega)]
      omega
    have hmod : q₀ % F = px := by
      rw [hq₀, Nat.mul_comm py F, Nat.mul_add_mod, Nat.mod_eq_of_lt (by omega)]
    have hle := Finset.le_sup'
      (f := fun q =>
        (if py ≤ q / F ∧ q / F < py + 2 * lpad ∧ px ≤ q % F ∧ q % F < px + 2 * lpad
          then 0 else cc (q / F) (q % F)))
      (Finset.mem_range.2 hq₀lt)
    rw [hdiv, hmod, if_pos (by omega)] at hle
    exact le_trans (le_of_eq rfl) hle
  rw [getSNRframe, specSNR, hnum, snrXmax, hsup, max_eq_right h0le]

/-- C5 witness: concrete instance `lcorr = 0, lpad = 1` on `peakOnly3`. -/
theorem C5_getSNR_formula_witness :
    (1 : ℕ) ≤ 1 ∧ getSNRframe 0 1 peakOnly3 = specSNR 0 1 peakOnly3 :=
  ⟨le_refl 1, C5_getSNR_formula 0 1 (le_refl 1) peakOnly3⟩

/-- `npAmax` of a singleton. -/
theorem npAmax_singleton (a : ℚ) : npAmax [a] = a := rfl

/-- `npAmax` of a list with at least two elements. -/
theorem npAmax_cons (a b : ℚ) (l : List ℚ) :
    npAmax (a :: b :: l) = max a (npAmax (b :: l)) := rfl

/-- If every entry of the zeroed surface is non-positive, the denominator
`Xmax = np.maximum(0, amax(zeroed))` collapses to `0` (the zeroed entries
themselves guarantee it is never negative). -/
theorem snrXmax_eq_zero_of_nonpos (lcorr lpad : ℕ) (cc : Surf)
    (hout : ∀ i j, i < 2 * lcorr + 2 * lpad + 1 → j < 2 * lcorr + 2 * lpad + 1 →
      snrZeroed lcorr lpad cc i j ≤ 0) :
    snrXmax lcorr lpad cc = 0 := by
  set F := 2 * lcorr + 2 * lpad + 1 with hF
  have hFpos : 0 < F := by omega
  set l := (List.range (F * F)).map
    (fun q => snrZeroed lcorr lpad cc (q / F) (q % F)) with hl
  have hzf : zeroedFlat lcorr lpad cc = l := rfl
  have hlen : l.length = F * F := by simp [hl]
  have hne : l ≠ [] := by
    intro hc
    have hFF : F * F ≠ 0 := Nat.mul_ne_zero (by omega) (by omega)
    rw [hc] at hlen
    simp only [List.length_nil] at hlen
    exact hFF hlen.symm
  have hle : npAmax l ≤ 0 := by
    have hmem : npAmax l ∈ l := npAmax_mem _ hne
    rw [hl] at hmem
    obtain ⟨q, hq, hfq⟩ := List.mem_map.1 hmem
    rw [← hfq]
    have hqF : q < F * F := List.mem_range.1 hq
    exact hout (q / F) (q % F)
      (by rw [Nat.div_lt_iff_lt_mul hFpos]; omega) (Nat.mod_lt _ hFpos)
  rw [snrXmax, hzf, max_eq_left hle]

/-- C10 (amended): `getSNR`'s denominator is clamped below at `0`; for any
frame whose inner-window peak is POSITIVE and whose values outside the zeroed
exclusion region are all non-positive, the returned SNR is `+inf` (division
by the zero denominator), which then passes any finite threshold (`inf < t`
is false). -/
theorem C10_snr_infinite_on_zero_denominator (lcorr lpad : ℕ) (hlpad : 1 ≤ lpad)
    (cc : Surf) (hpos : 0 < snrX1max lcorr lpad cc)
    (hout : ∀ i j, i < 2 * lcorr + 2 * lpad + 1 → j < 2 * lcorr + 2 * lpad + 1 →
      snrZeroed lcorr lpad cc i j ≤ 0) :
    getSNRframe lcorr lpad cc = FVal.posInf ∧
    ∀ t : ℚ, fvalLt (getSNRframe lcorr lpad cc) t = false := by
  have hX : snrXmax lcorr lpad cc = 0 := snrXmax_eq_zero_of_nonpos lcorr lpad cc hout
  have hmain : getSNRframe lcorr lpad cc = FVal.posInf := by
    rw [getSNRframe, hX, fdiv, if_pos rfl, if_pos hpos]
  exact ⟨hmain, fun t => by rw [hmain]; rfl⟩

/-- The concrete 3×3 inner window of `peakOnly3` (with `lcorr = 0, lpad = 1`)
is the single centre pixel. -/
theorem innerFlat_peakOnly3 : innerFlat 0 1 peakOnly3 = [1] := by
  simp [innerFlat, peakOnly3, List.range_succ]

/-- Peak row index of `peakOnly3`. -/
theorem snrYpk_peakOnly3 : snrYpk 0 1 peakOnly3 = 0 := by
  rw [snrYpk, innerFlat_peakOnly3]
  rfl

/-- Peak column index of `peakOnly3`. -/
theorem snrXpk_peakOnly3 : snrXpk 0 1 peakOnly3 = 0 := by
  rw [snrXpk, innerFlat_peakOnly3]
  rfl

/-- C10 witness: `lcorr = 0, lpad = 1` and the single-positive-peak surface. -/
theorem C10_snr_infinite_on_zero_denominator_witness :
    (1 : ℕ) ≤ 1 ∧ 0 < snrX1max 0 1 peakOnly3 ∧
    (∀ i j, i < 2 * 0 + 2 * 1 + 1 → j < 2 * 0 + 2 * 1 + 1 →
      snrZeroed 0 1 peakOnly3 i j ≤ 0) ∧
    getSNRframe 0 1 peakOnly3 = FVal.posInf := by
  have hpos : 0 < snrX1max 0 1 peakOnly3 := by
    rw [snrX1max, innerFlat_peakOnly3, npAmax_singleton]
    norm_num
  have hout : ∀ i j, i < 2 * 0 + 2 * 1 + 1 → j < 2 * 0 + 2 * 1 + 1 →
      snrZeroed 0 1 peakOnly3 i j ≤ 0 := by
    intro i j hi hj
    rw [snrZeroed, snrYpk_peakOnly3, snrXpk_peakOnly3]
    split_ifs with h
    · exact le_refl 0
    · simp only [peakOnly3]
      split_ifs with h2
      · exfalso; omega
      · exact le_refl 0
  exact ⟨le_refl 1, hpos, hout,
    (C10_snr_infinite_on_zero_denominator 0 1 (le_refl 1) peakOnly3 hpos hout).1⟩

/-- The concrete 3×3 inner window of the all-negative surface. -/
theorem innerFlat_negOne3 : innerFlat 0 1 negOne3 = [-1] := by
  simp [innerFlat, negOne3, List.range_succ]

/-- C10 counterexample: on an all-negative surface every value outside the
zeroed exclusion region is non-positive (the claim's premise), yet the
returned SNR is `-inf`, not `+inf`, and it FAILS the finite threshold
(`-inf < 1000` is true) instead of passing it. -/
theorem C10_counterexample :
    (∀ i j, i < 2 * 0 + 2 * 1 + 1 → j < 2 * 0 + 2 * 1 + 1 →
      snrZeroed 0 1 negOne3 i j ≤ 0) ∧
    getSNRframe 0 1 negOne3 = FVal.negInf ∧
    FVal.negInf ≠ FVal.posInf ∧
    fvalLt (getSNRframe 0 1 negOne3) 1000 = true := by
  have hout : ∀ i j, i < 2 * 0 + 2 * 1 + 1 → j < 2 * 0 + 2 * 1 + 1 →
      snrZeroed 0 1 negOne3 i j ≤ 0 := by
    intro i j hi hj
    rw [snrZeroed]
    split_ifs with h
    · exact le_refl 0
    · show (-1 : ℚ) ≤ 0
      norm_num
  have hX : snrXmax 0 1 negOne3 = 0 := snrXmax_eq_zero_of_nonpos 0 1 negOne3 hout
  have hX1 : snrX1max 0 1 negOne3 = -1 := by
    rw [snrX1max, innerFlat_negOne3, npAmax_singleton]
  have hmain : getSNRframe 0 1 negOne3 = FVal.negInf := by
    rw [getSNRframe, hX1, hX, fdiv, if_pos rfl]
    norm_num
  refine ⟨hout, hmain, ?_, ?_⟩
  · intro h
    exact FVal.noConfusion h
  · rw [hmain]
    rfl

/-- Pointwise effect of one smoothing round on a frame `t < T` (the global
break-on-empty-mask check never changes a frame's result). -/
theorem smoothRound_apply (θ : ℚ) (lcorr lpad T : ℕ) (c : ℕ → Surf) (j : ℕ)
    (st : SmState) (t : ℕ) (ht : t < T) :
    ((smoothRound θ lcorr lpad T c j st).snr t =
      if fvalLt (st.snr t) θ then getSNRframe lcorr lpad (c t) else st.snr t) ∧
    ((smoothRound θ lcorr lpad T c j st).ccsm t =
      if fvalLt (st.snr t) θ ∧ 0 < j then c t else st.ccsm t) := by
  constructor
  · rw [smoothRound]
    by_cases hall : ((List.range T).all fun t => ! fvalLt (st.snr t) θ) = true
    · rw [if_pos hall]
      have hf : fvalLt (st.snr t) θ = false := by
        have h := List.all_eq_true.1 hall t (List.mem_range.2 ht)
        simpa using h
      rw [hf]
      simp
    · rw [if_neg hall]
  · rw [smoothRound]
    by_cases hall : ((List.range T).all fun t => ! fvalLt (st.snr t) θ) = true
    · rw [if_pos hall]
      have hf : fvalLt (st.snr t) θ = false := by
        have h := List.all_eq_true.1 hall t (List.mem_range.2 ht)
        simpa using h
      rw [hf]
      simp
    · rw [if_neg hall]

/-- C2 (amended): provided the SNR threshold exceeds 1 (the loop seeds its
SNR array with ones, so a threshold `≤ 1` skips all smoothing), the surface
returned for a (frame, block) pair is: the raw surface when the raw SNR is
not below threshold; otherwise the once-smoothed surface when its SNR is not
below threshold; otherwise the twice-smoothed surface.  In particular every
returned surface is one of `{cc2[0], cc2[1], cc2[2]}`, and at most two
smoothing rounds ever occur. -/
theorem C2_smoothing_rounds (θ : ℚ) (hθ : 1 < θ) (lcorr lpad T : ℕ)
    (NRsm : ℕ → ℕ → ℚ) (nb : ℕ) (cc0 : ℕ → ℕ → Surf) (n t : ℕ) (ht : t < T) :
    ((smoothBlock θ lcorr lpad T (cc2list NRsm nb cc0) n).ccsm t =
      (if fvalLt (getSNRframe lcorr lpad (cc2list NRsm nb cc0 0 n t)) θ then
        (if fvalLt (getSNRframe lcorr lpad (cc2list NRsm nb cc0 1 n t)) θ then
          cc2list NRsm nb cc0 2 n t
        else cc2list NRsm nb cc0 1 n t)
      else cc2list NRsm nb cc0 0 n t)) ∧
    ((smoothBlock θ lcorr lpad T (cc2list NRsm nb cc0) n).ccsm t =
        cc2list NRsm nb cc0 0 n t ∨
      (smoothBlock θ lcorr lpad T (cc2list NRsm nb cc0) n).ccsm t =
        cc2list NRsm nb cc0 1 n t ∨
      (smoothBlock θ lcorr lpad T (cc2list NRsm nb cc0) n).ccsm t =
        cc2list NRsm nb cc0 2 n t) := by
  set c0 := cc2list NRsm nb cc0 0 n with hc0
  set c1 := cc2list NRsm nb cc0 1 n with hc1
  set c2 := cc2list NRsm nb cc0 2 n with hc2
  set st0 : SmState := ⟨fun _ => FVal.fin 1, fun t => c0 t⟩ with hst0
  set s1 := smoothRound θ lcorr lpad T c0 0 st0 with hs1
  set s2 := smoothRound θ lcorr lpad T c1 1 s1 with hs2
  have hblock : smoothBlock θ lcorr lpad T (cc2list NRsm nb cc0) n =
      smoothRound θ lcorr lpad T c2 2 s2 := rfl
  have h1true : fvalLt (st0.snr t) θ = true := by
    show fvalLt (FVal.fin 1) θ = true
    simp [fvalLt, hθ]
  obtain ⟨h1snr, h1ccsm⟩ := smoothRound_apply θ lcorr lpad T c0 0 st0 t ht
  rw [← hs1] at h1snr h1ccsm
  rw [h1true] at h1snr h1ccsm
  simp only [if_true] at h1snr
  have h1c : s1.ccsm t = c0 t := by
    rw [h1ccsm]
    simp
  obtain ⟨h2snr, h2ccsm⟩ := smoothRound_apply θ lcorr lpad T c1 1 s1 t ht
  rw [← hs2] at h2snr h2ccsm
  obtain ⟨h3snr, h3ccsm⟩ :=
    smoothRound_apply θ lcorr lpad T c2 2 s2 t ht
  have hmain : (smoothBlock θ lcorr lpad T (cc2list NRsm nb cc0) n).ccsm t =
      (if fvalLt (getSNRframe lcorr lpad (c0 t)) θ then
        (if fvalLt (getSNRframe lcorr lpad (c1 t)) θ then c2 t else c1 t)
      else c0 t) := by
    rw [hblock, h3ccsm]
    by_cases h0 : fvalLt (getSNRframe lcorr lpad (c0 t)) θ = true
    · rw [h0, if_pos rfl]
      have h2s : s2.snr t = getSNRframe lcorr lpad (c1 t) := by
        rw [h2snr, h1snr, h0]
        simp
      have h2c : s2.ccsm t = c1 t := by
        rw [h2ccsm, h1snr, h0]
        simp
      rw [h2s, h2c]
      by_cases h1 : fvalLt (getSNRframe lcorr lpad (c1 t)) θ = true
      · rw [h1, if_pos rfl, if_pos ⟨rfl, by omega⟩]
      · rw [Bool.not_eq_true] at h1
        rw [h1]
        simp
    · rw [Bool.not_eq_true] at h0
      rw [h0]
      have h2s : s2.snr t = getSNRframe lcorr lpad (c0 t) := by
        rw [h2snr, h1snr, h0]
        simp
      have h2c : s2.ccsm t = c0 t := by
        rw [h2ccsm, h1snr, h0]
        simp [h1c]
      rw [h2s, h2c, h0]
      simp
  refine ⟨hmain, ?_⟩
  rw [hmain]
  by_cases h0 : fvalLt (getSNRframe lcorr lpad (c0 t)) θ = true
  · rw [h0, if_pos rfl]
    by_cases h1 : fvalLt (getSNRframe lcorr lpad (c1 t)) θ = true
    · rw [h1, if_pos rfl]
      right; right; rfl
    · rw [Bool.not_eq_true] at h1
      rw [h1]
      simp
  · rw [Bool.not_eq_true] at h0
    rw [h0]
    simp

/-- C2 witness for the amended statement: threshold `2 > 1` on the two-block
example stack. -/
theorem C2_smoothing_rounds_witness :
    (1 : ℚ) < 2 ∧ (0 : ℕ) < 1 ∧
    (((smoothBlock 2 0 1 1 (cc2list NRsmHalf 2 cc0pair) 0).ccsm 0 =
      (if fvalLt (getSNRframe 0 1 (cc2list NRsmHalf 2 cc0pair 0 0 0)) 2 then
        (if fvalLt (getSNRframe 0 1 (cc2list NRsmHalf 2 cc0pair 1 0 0)) 2 then
          cc2list NRsmHalf 2 cc0pair 2 0 0
        else cc2list NRsmHalf 2 cc0pair 1 0 0)
      else cc2list NRsmHalf 2 cc0pair 0 0 0)) ∧
    ((smoothBlock 2 0 1 1 (cc2list NRsmHalf 2 cc0pair) 0).ccsm 0 =
        cc2list NRsmHalf 2 cc0pair 0 0 0 ∨
      (smoothBlock 2 0 1 1 (cc2list NRsmHalf 2 cc0pair) 0).ccsm 0 =
        cc2list NRsmHalf 2 cc0pair 1 0 0 ∨
      (smoothBlock 2 0 1 1 (cc2list NRsmHalf 2 cc0pair) 0).ccsm 0 =
        cc2list NRsmHalf 2 cc0pair 2 0 0)) :=
  ⟨by norm_num, Nat.zero_lt_one,
   C2_smoothing_rounds 2 (by norm_num) 0 1 1 NRsmHalf 2 cc0pair 0 0 Nat.zero_lt_one⟩

/-- The concrete 3×3 inner window of `lowSnr3` is the single centre pixel. -/
theorem innerFlat_lowSnr3 : innerFlat 0 1 lowSnr3 = [1] := by
  simp [innerFlat, lowSnr3, List.range_succ]

/-- Peak row index of `lowSnr3`. -/
theorem snrYpk_lowSnr3 : snrYpk 0 1 lowSnr3 = 0 := by
  rw [snrYpk, innerFlat_lowSnr3]
  rfl

/-- Peak column index of `lowSnr3`. -/
theorem snrXpk_lowSnr3 : snrXpk 0 1 lowSnr3 = 0 := by
  rw [snrXpk, innerFlat_lowSnr3]
  rfl

/-- The zeroed surface of `lowSnr3`: the `2×2` exclusion square kills the
peak but the border value `5` survives. -/
theorem zeroedFlat_lowSnr3 :
    zeroedFlat 0 1 lowSnr3 = [0, 0, 0, 0, 0, 0, 0, 0, 5] := by
  norm_num [zeroedFlat, snrZeroed, snrYpk_lowSnr3, snrXpk_lowSnr3, lowSnr3,
    List.range_succ]

/-- The raw SNR of `lowSnr3` is `1/5`. -/
theorem getSNR_lowSnr3 : getSNRframe 0 1 lowSnr3 = FVal.fin (1 / 5) := by
  have hX1 : snrX1max 0 1 lowSnr3 = 1 := by
    rw [snrX1max, innerFlat_lowSnr3, npAmax_singleton]
  have hnp : npAmax [0, 0, 0, 0, 0, 0, 0, 0, 5] = (5 : ℚ) := by
    norm_num [npAmax_cons, npAmax_singleton, max_def]
  have hXm : snrXmax 0 1 lowSnr3 = 5 := by
    rw [snrXmax, zeroedFlat_lowSnr3, hnp, max_def]
    norm_num
  rw [getSNRframe, hX1, hXm, fdiv]
  norm_num

/-- C2 counterexample: with `snr_thresh = 1` the raw SNR of block 0
(`1/5`) is strictly below the threshold, yet no smoothing happens — the
returned surface still equals the raw one (`1` at the centre), not the
once-smoothed surface (`1/2` at the centre) the claim requires — because the
loop's mask is seeded with `snr = 1`, which is not `< 1`. -/
theorem C2_counterexample :
    fvalLt (getSNRframe 0 1 (cc2list NRsmHalf 2 cc0pair 0 0 0)) 1 = true ∧
    (smoothBlock 1 0 1 1 (cc2list NRsmHalf 2 cc0pair) 0).ccsm 0 1 1 = 1 ∧
    cc2list NRsmHalf 2 cc0pair 1 0 0 1 1 = 1 / 2 ∧
    ((1 : ℚ) ≠ 1 / 2) := by
  have hc00 : cc2list NRsmHalf 2 cc0pair 0 0 0 = lowSnr3 := rfl
  have hlt1 : fvalLt (FVal.fin 1) 1 = false := by
    simp [fvalLt]
  refine ⟨?_, ?_, ?_, by norm_num⟩
  · rw [hc00, getSNR_lowSnr3]
    simp [fvalLt]
    norm_num
  · set st0 : SmState :=
      ⟨fun _ => FVal.fin 1, fun t => cc2list NRsmHalf 2 cc0pair 0 0 t⟩ with hst0
    have hguard :
        ((List.range 1).all fun t => ! fvalLt (st0.snr t) 1) = true := by
      simp [hst0, hlt1, List.range_succ]
    have hfix : ∀ (c : ℕ → Surf) (j : ℕ), smoothRound 1 0 1 1 c j st0 = st0 :=
      fun c j => by rw [smoothRound, if_pos hguard]
    have hsm : smoothBlock 1 0 1 1 (cc2list NRsmHalf 2 cc0pair) 0 = st0 := by
      show smoothRound 1 0 1 1 (cc2list NRsmHalf 2 cc0pair 2 0) 2
        (smoothRound 1 0 1 1 (cc2list NRsmHalf 2 cc0pair 1 0) 1
          (smoothRound 1 0 1 1 (cc2list NRsmHalf 2 cc0pair 0 0) 0 st0)) = st0
      rw [hfix, hfix, hfix]
    rw [hsm]
    show cc2list NRsmHalf 2 cc0pair 0 0 0 1 1 = 1
    rw [hc00]
    norm_num [lowSnr3]
  · show nrApply NRsmHalf 2 cc0pair 0 0 1 1 = 1 / 2
    rw [nrApply]
    rw [Finset.sum_range_succ, Finset.sum_range_succ, Finset.sum_range_zero]
    norm_num [NRsmHalf, cc0pair, lowSnr3]

/-- The inner window of the degenerate (`lcorr = 0`) C8 correlation window. -/
theorem innerFlat_ccWindow_yEx : innerFlat 0 1 (ccWindow 2 2 1 yEx) = [0] := by
  norm_num [innerFlat, ccWindow, ccWrapIdx, yEx, List.range_succ]

/-- Peak row index of the degenerate C8 window. -/
theorem snrYpk_ccWindow_yEx : snrYpk 0 1 (ccWindow 2 2 1 yEx) = 0 := by
  rw [snrYpk, innerFlat_ccWindow_yEx]
  rfl

/-- Peak column index of the degenerate C8 window. -/
theorem snrXpk_ccWindow_yEx : snrXpk 0 1 (ccWindow 2 2 1 yEx) = 0 := by
  rw [snrXpk, innerFlat_ccWindow_yEx]
  rfl

/-- C8: contrary to the claimed fail-fast behaviour, `phasecorr` performs no
validation of `lcorr`.  On the failing input `ly = lx = 2, lpad = 1,
maxregshiftNR = 5` the computed `lcorr` is `0` (non-positive), and the
pipeline proceeds: the correlation window is sliced (degenerate 1×1 inner
window) and `getSNR` runs to completion, returning the ordinary finite value
`0` instead of raising a descriptive error. -/
theorem C8_lcorr_not_validated :
    lcorrOf 2 2 5 1 = 0 ∧
    getSNRframe 0 1 (ccWindow 2 2 1 yEx) = FVal.fin 0 := by
  constructor
  · rw [lcorrOf, npRound]
    norm_num
  · have hX1 : snrX1max 0 1 (ccWindow 2 2 1 yEx) = 0 := by
      rw [snrX1max, innerFlat_ccWindow_yEx, npAmax_singleton]
    have hzf : zeroedFlat 0 1 (ccWindow 2 2 1 yEx) = [0, 0, 3, 0, 0, 1, 3, 2, 3] := by
      norm_num [zeroedFlat, snrZeroed, snrYpk_ccWindow_yEx, snrXpk_ccWindow_yEx,
        ccWindow, ccWrapIdx, yEx, List.range_succ]
    have hnp : npAmax [0, 0, 3, 0, 0, 1, 3, 2, 3] = (3 : ℚ) := by
      norm_num [npAmax_cons, npAmax_singleton, max_def]
    have hXm : snrXmax 0 1 (ccWindow 2 2 1 yEx) = 3 := by
      rw [snrXmax, hzf, hnp, max_def]
      norm_num
    rw [getSNRframe, hX1, hXm, fdiv]
    norm_num

/-- C9: (i) the patch-times-operator product in `phasecorr` is
dimensionally defined iff the caller's `lpad` is `3` — the operator is always
the cached `mat_upsample(lpad=3, subpixel=10)` one; (ii) that operator's fine
grid has `nup = 61` points; (iii) the shift combination
`(fine_index - nup//2)/subpixel + (integer_peak - lcorr)` agrees with the
true fine-grid offset `larUP[fine_index]` for all indices iff
`subpixel = 10`. -/
theorem C9_upsample_operator_fixed :
    (∀ (nb lpadArg : ℕ) (ccmatEnt KmatEnt : ℕ → ℕ → ℚ),
      (phasecorrCCB nb lpadArg ccmatEnt KmatEnt).isSome = true ↔ lpadArg = 3) ∧
    nupOf 3 10 = 61 ∧
    (∀ subpixel : ℕ,
      (∀ k < nupOf 3 10, ∀ intPeak lcorr : ℤ,
        refineShift subpixel k intPeak lcorr =
          ((intPeak - lcorr : ℤ) : ℚ) + larUP3 k) ↔ subpixel = 10) := by
  have hnup : nupOf 3 10 = 61 := by
    rw [nupOf]
    rw [show ((2 * (3 : ℕ) : ℚ) + 1 / 1000) * ((10 : ℕ) : ℚ) = 60 + 1 / 100 by
      push_cast; ring]
    rw [Nat.ceil_eq_iff (by omega)]
    norm_num
  have hmd : (nupOf 3 10 / 2 : ℕ) = 30 := by rw [hnup]
  have hdims : ∀ (nb lpadArg : ℕ) (ccmatEnt KmatEnt : ℕ → ℕ → ℚ),
      (phasecorrCCB nb lpadArg ccmatEnt KmatEnt).isSome = true ↔
        (2 * lpadArg + 1) ^ 2 = (2 * 3 + 1) ^ 2 := by
    intro nb lpadArg ccmatEnt KmatEnt
    rw [phasecorrCCB, matmulChecked]
    split_ifs with hc
    · simp only [Option.isSome_some]
      exact ⟨fun _ => hc, fun _ => trivial⟩
    · simp only [Option.isSome_none]
      constructor
      · intro h
        simp at h
      · intro h
        exact absurd h hc
  refine ⟨?_, hnup, ?_⟩
  · intro nb lpadArg ccmatEnt KmatEnt
    rw [hdims]
    constructor
    · intro h
      have h7 : 2 * lpadArg + 1 = 2 * 3 + 1 :=
        Nat.pow_left_injective (n := 2) (by omega) h
      omega
    · intro h
      subst h
      rfl
  · intro subpixel
    constructor
    · intro h
      have h40 := h 40 (by omega) 0 0
      rw [refineShift, larUP3, hmd] at h40
      by_cases hs : subpixel = 0
      · rw [hs] at h40
        norm_num at h40
      · have hsq : ((subpixel : ℚ)) ≠ 0 := by exact_mod_cast hs
        field_simp at h40
        have hq : (subpixel : ℚ) = 10 := by linarith
        exact_mod_cast hq
    · intro h
      subst h
      intro k hk intPeak lcorr
      rw [refineShift, larUP3, hmd]
      push_cast
      ring

/-- C9 witness: the dimension check passes at `lpad = 3`. -/
theorem C9_upsample_operator_fixed_witness :
    (phasecorrCCB 1 3 (fun _ _ => 0) (fun _ _ => 0)).isSome = true :=
  (C9_upsample_operator_fixed.1 1 3 (fun _ _ => 0) (fun _ _ => 0)).mpr rfl
